import Mathlib

/-!
Shallow embedding of `server.js` of nifty100-live-app: a relay service that
keeps an in-memory last-traded-price cache for a configured symbol universe,
fed by a streaming session, and serves it over HTTP.

JavaScript `Map` objects (and plain objects used as string-keyed records) are
modelled as association lists with overwrite-on-set semantics; JS numbers used
as prices are modelled as `Int` (truthiness of a number is `≠ 0`); possibly
absent fields are `Option`.
-/

namespace Nifty100

/-- JS `Map.get` / object property read: the value stored at key `k`, if any. -/
def mget {α : Type} (m : List (String × α)) (k : String) : Option α :=
  (m.find? (fun p => decide (p.1 = k))).map Prod.snd

/-- JS `Map.set` / object property write: overwrite the entry at key `k` if it
exists (keeping insertion order), otherwise append a new entry. -/
def mset {α : Type} (m : List (String × α)) (k : String) (v : α) : List (String × α) :=
  if m.any (fun p => decide (p.1 = k)) then
    m.map (fun p => if p.1 = k then (k, v) else p)
  else m ++ [(k, v)]

theorem mget_nil {α : Type} (k : String) : mget ([] : List (String × α)) k = none := rfl

theorem mget_cons {α : Type} (p : String × α) (m : List (String × α)) (k : String) :
    mget (p :: m) k = if p.1 = k then some p.2 else mget m k := by
  by_cases h : p.1 = k <;> simp [mget, List.find?, h]

theorem mget_overwrite_self {α : Type} (k : String) (v : α) :
    ∀ m : List (String × α), m.any (fun p => decide (p.1 = k)) = true →
      mget (m.map (fun p => if p.1 = k then (k, v) else p)) k = some v := by
  intro m
  induction m with
  | nil => intro h; simp at h
  | cons p rest ih =>
    intro h
    by_cases hp : p.1 = k
    · simp [mget_cons, hp]
    · have hrest : rest.any (fun p => decide (p.1 = k)) = true := by
        simpa [List.any_cons, hp] using h
      simp [mget_cons, hp, ih hrest]

theorem mget_overwrite_ne {α : Type} (k k' : String) (v : α) (h : k' ≠ k) :
    ∀ m : List (String × α),
      mget (m.map (fun p => if p.1 = k then (k, v) else p)) k' = mget m k' := by
  intro m
  induction m with
  | nil => rfl
  | cons p rest ih =>
    by_cases hp : p.1 = k
    · have h1 : ¬ (k = k') := fun hc => h hc.symm
      have h2 : ¬ (p.1 = k') := by rw [hp]; exact h1
      simp [mget_cons, hp, h1, h2, ih]
    · by_cases hq : p.1 = k'
      · simp [mget_cons, hp, hq, h]
      · simp [mget_cons, hp, hq, ih]

theorem mget_append_single_self {α : Type} (k : String) (v : α) :
    ∀ m : List (String × α), m.any (fun p => decide (p.1 = k)) = false →
      mget (m ++ [(k, v)]) k = some v := by
  intro m
  induction m with
  | nil => intro h; simp [mget_cons]
  | cons p rest ih =>
    intro h
    have hp : ¬ p.1 = k := by
      intro hc
      rw [List.any_cons] at h
      simp [hc] at h
    have hrest : rest.any (fun q => decide (q.1 = k)) = false := by
      rw [List.any_cons] at h
      cases h0 : rest.any (fun q => decide (q.1 = k)) with
      | false => rfl
      | true => rw [h0] at h; simp at h
    simp [mget_cons, hp, ih hrest]

theorem mget_append_single_ne {α : Type} (k k' : String) (v : α) (h : k' ≠ k) :
    ∀ m : List (String × α), mget (m ++ [(k, v)]) k' = mget m k' := by
  intro m
  induction m with
  | nil =>
    have hk : ¬ (k = k') := fun hc => h hc.symm
    simp [mget_cons, hk, mget_nil]
  | cons p rest ih =>
    by_cases hp : p.1 = k' <;> simp [mget_cons, hp, ih]

theorem mget_mset_self {α : Type} (m : List (String × α)) (k : String) (v : α) :
    mget (mset m k v) k = some v := by
  unfold mset
  cases hany : m.any (fun p => decide (p.1 = k)) with
  | true => simpa using mget_overwrite_self k v m hany
  | false => simpa using mget_append_single_self k v m hany

theorem mget_mset_ne {α : Type} (m : List (String × α)) (k k' : String) (v : α)
    (h : k' ≠ k) : mget (mset m k v) k' = mget m k' := by
  unfold mset
  cases hany : m.any (fun p => decide (p.1 = k)) with
  | true => simpa using mget_overwrite_ne k k' v h m
  | false => simpa using mget_append_single_ne k k' v h m

theorem mem_mset {α : Type} (m : List (String × α)) (k : String) (v : α)
    (e : String × α) (h : e ∈ mset m k v) : e = (k, v) ∨ e ∈ m := by
  unfold mset at h
  cases hany : m.any (fun p => decide (p.1 = k)) with
  | true =>
    rw [hany, if_pos rfl, List.mem_map] at h
    obtain ⟨p, hp, he⟩ := h
    by_cases hpk : p.1 = k
    · left
      rw [← he, if_pos hpk]
    · right
      rw [← he, if_neg hpk]
      exact hp
  | false =>
    rw [hany] at h
    simp only [Bool.false_eq_true, if_false, List.mem_append, List.mem_singleton] at h
    exact h.symm.imp id id

theorem keys_overwrite {α : Type} (k : String) (v : α) :
    ∀ m : List (String × α),
      (m.map (fun p => if p.1 = k then (k, v) else p)).map Prod.fst = m.map Prod.fst := by
  intro m
  induction m with
  | nil => rfl
  | cons p rest ih =>
    by_cases hp : p.1 = k <;> simp [hp, ih]

theorem any_key_mem {α : Type} (m : List (String × α)) (k : String)
    (hany : m.any (fun p => decide (p.1 = k)) = true) : k ∈ m.map Prod.fst := by
  simp only [List.any_eq_true, decide_eq_true_eq] at hany
  obtain ⟨p, hp, hpk⟩ := hany
  exact List.mem_map.2 ⟨p, hp, hpk⟩

theorem keys_mset {α : Type} (m : List (String × α)) (k : String) (v : α) (s : String) :
    s ∈ (mset m k v).map Prod.fst ↔ s ∈ m.map Prod.fst ∨ s = k := by
  unfold mset
  cases hany : m.any (fun p => decide (p.1 = k)) with
  | true =>
    rw [if_pos rfl, keys_overwrite]
    constructor
    · exact Or.inl
    · rintro (h | rfl)
      · exact h
      · exact any_key_mem m s hany
  | false =>
    simp [List.mem_append]

/-- An entry of the price cache `ltpMap`: `\x7b price, ts \x7d`. -/
structure PriceEntry where
  price : Int
  ts : Nat
deriving DecidableEq, Repr

/-- JS `String.prototype.split(',')`: cut the character list at every comma;
splitting the empty string gives `[""]`, like JS. -/
def splitCommaAux : List Char → List Char → List String
  | [], cur => [String.mk cur.reverse]
  | c :: rest, cur =>
    if c = ',' then String.mk cur.reverse :: splitCommaAux rest []
    else splitCommaAux rest (c :: cur)

def splitComma (s : String) : List String :=
  splitCommaAux s.toList []

/-- Drop leading whitespace characters. -/
def dropLeadingWs : List Char → List Char
  | [] => []
  | c :: rest => if c.isWhitespace then dropLeadingWs rest else c :: rest

/-- JS `String.prototype.trim()`: strip whitespace from both ends. -/
def trimStr (s : String) : String :=
  String.mk ((dropLeadingWs (dropLeadingWs s.toList).reverse).reverse)

/-- JS expression `String(req.query.tickers || '').split(',').map(s => s.trim()).filter(Boolean)` -/
def parseTickers (s : String) : List String :=
  ((splitComma s).map trimStr).filter (fun t => t ≠ "")

/-- The `/api/quotes` handler body: for each requested ticker, copy the cached
price into the response object when the cache holds that symbol. -/
def quotesHandler (ltpMap : List (String × PriceEntry)) (tickersParam : String) :
    List (String × Int) :=
  (parseTickers tickersParam).foldl
    (fun out t =>
      match mget ltpMap t with
      | some q => mset out t q.price
      | none => out) []

/-- One record of the exchange instrument catalog returned by
`kite.getInstruments('NSE')`: only the fields the code reads. -/
structure CatalogRec where
  tradingsymbol : String
  instrument_token : Nat
deriving DecidableEq, Repr

/-- The loop body of `hydrateInstrumentMap`: starting from a fresh empty map,
insert `tradingsymbol -> instrument_token` for every catalog record whose
symbol is in the configured universe (`NIFTY100.includes`). -/
def buildInstrumentMap (univ : List String) (catalog : List CatalogRec) :
    List (String × Nat) :=
  catalog.foldl
    (fun m r =>
      if r.tradingsymbol ∈ univ then mset m r.tradingsymbol r.instrument_token
      else m) []

/-- Outcome of the catalog fetch `kite.getInstruments('NSE')`. -/
inductive FetchResult where
  | ok (catalog : List CatalogRec)
  | err
deriving DecidableEq, Repr

/-- Function `hydrateInstrumentMap` as a transformer of the module-level
`instrumentBySymbol` map: on a successful fetch the map is reset and rebuilt
from the catalog; on a failed fetch the error is caught, logged and the
previous map kept. -/
def hydrateInstrumentMap (univ : List String) (prev : List (String × Nat))
    (fetch : FetchResult) : List (String × Nat) :=
  match fetch with
  | FetchResult.ok catalog => buildInstrumentMap univ catalog
  | FetchResult.err => prev

/-- A tick object delivered by the `ticks` event: only the fields the code
reads. A JS-absent (`undefined`) numeric field is `none`. -/
structure Tick where
  instrument_token : Nat
  last_price : Option Int
  ltp : Option Int
  close : Option Int
deriving DecidableEq, Repr

/-- JS `a || b` on a possibly absent number `a`: `a` when present and truthy
(nonzero), otherwise `b`. -/
def orField (v : Option Int) (fallback : Int) : Int :=
  match v with
  | some x => if x ≠ 0 then x else fallback
  | none => fallback

/-- JS expression `t.last_price || t.ltp || t.close || 0`. -/
def tickPrice (t : Tick) : Int :=
  orField t.last_price (orField t.ltp (orField t.close 0))

/-- JS expression `[...instrumentBySymbol.entries()].find(([, tok]) => tok === t.instrument_token)?.[0]`:
the linear reverse lookup from instrument token to symbol. -/
def findSymbol (instMap : List (String × Nat)) (tok : Nat) : Option String :=
  (instMap.find? (fun p => decide (p.2 = tok))).map Prod.fst

/-- The per-tick body of the `ticks` handler: resolve the symbol, compute the
price with the `||` fallback chain, and store `\x7b price, ts \x7d` only when the
price is truthy (nonzero). `now` stands for `Date.now()`. -/
def processTick (instMap : List (String × Nat)) (ltpMap : List (String × PriceEntry))
    (t : Tick) (now : Nat) : List (String × PriceEntry) :=
  match findSymbol instMap t.instrument_token with
  | none => ltpMap
  | some sym =>
    let price := tickPrice t
    if price ≠ 0 then mset ltpMap sym ⟨price, now⟩ else ltpMap

/-- The `ticks` handler applied to a sequence of ticks, each paired with its
`Date.now()` value. -/
def processTicks (instMap : List (String × Nat)) (ltpMap : List (String × PriceEntry))
    (ticks : List (Tick × Nat)) : List (String × PriceEntry) :=
  ticks.foldl (fun m p => processTick instMap m p.1 p.2) ltpMap

/-- Observable requests the controller makes of streaming sessions, in order.
Sessions (`new KiteTicker` instances) are numbered in order of creation. -/
inductive Event where
  | resolveBegin : Event
  | resolveEnd : Event
  | disconnectReq : Nat → Event
  | connectReq : Nat → Event
deriving DecidableEq, Repr

/-- The module-level mutable state of `server.js` that the session lifecycle
touches: the access token, the two maps, which session (if any) has had
`connect()` requested and no `disconnect()` requested yet, and a counter
numbering `new KiteTicker` instances. -/
structure CtrlState where
  accessToken : String
  instrumentBySymbol : List (String × Nat)
  ltpMap : List (String × PriceEntry)
  live : Option Nat
  nextId : Nat
deriving DecidableEq, Repr

/-- Call of `ticker.disconnect()`, which may throw; `fails` selects the outcome. -/
def disconnectCall (fails : Bool) : Except Unit Unit :=
  if fails then Except.error () else Except.ok ()

/-- Semantics of `try \x7b ticker.disconnect(); \x7d catch \x7b\x7d`: the disconnect request is
issued and any exception is swallowed, so the emitted events do not depend on
the outcome. -/
def tryDisconnect (fails : Bool) (oldId : Nat) : List Event :=
  match disconnectCall fails with
  | Except.ok _ => [Event.disconnectReq oldId]
  | Except.error _ => [Event.disconnectReq oldId]

/-- Function `startTicker()`: a no-op without an access token; otherwise resolve
instruments (`await hydrateInstrumentMap()`), give up if no tokens resolved,
else disconnect any existing ticker (best effort) and create and connect a
new one. Returns the updated state and the emitted events. -/
def startTicker (univ : List String) (st : CtrlState) (fetch : FetchResult)
    (discFail : Bool) : CtrlState × List Event :=
  if st.accessToken = "" then (st, [])
  else
    let inst2 := hydrateInstrumentMap univ st.instrumentBySymbol fetch
    let st1 : CtrlState := { st with instrumentBySymbol := inst2 }
    let resolveEv : List Event := [Event.resolveBegin, Event.resolveEnd]
    let tokens := inst2.map Prod.snd
    if tokens.isEmpty then (st1, resolveEv)
    else
      match st1.live with
      | some oldId =>
        ({ st1 with live := some st1.nextId, nextId := st1.nextId + 1 },
         resolveEv ++ tryDisconnect discFail oldId ++ [Event.connectReq st1.nextId])
      | none =>
        ({ st1 with live := some st1.nextId, nextId := st1.nextId + 1 },
         resolveEv ++ [Event.connectReq st1.nextId])

/-- One credential-set operation: a new access token arrives (OAuth callback
exchange, or startup seeding from the environment) and `startTicker()` runs,
with the given catalog-fetch and disconnect outcomes. -/
structure Op where
  token : String
  fetch : FetchResult
  discFail : Bool
deriving DecidableEq, Repr

/-- Store the new credential, then run `startTicker()`. -/
def applyOp (univ : List String) (st : CtrlState) (op : Op) : CtrlState × List Event :=
  startTicker univ { st with accessToken := op.token } op.fetch op.discFail

/-- Run a sequence of credential-set operations, concatenating their events. -/
def runOps (univ : List String) (st : CtrlState) : List Op → CtrlState × List Event
  | [] => (st, [])
  | op :: rest =>
    let r1 := applyOp univ st op
    let r2 := runOps univ r1.1 rest
    (r2.1, r1.2 ++ r2.2)

/-- Module state at process start: no token yet (seeding a `KITE_ACCESS_TOKEN`
from the environment is an `Op`), empty maps, `ticker = null`. -/
def initState : CtrlState := ⟨"", [], [], none, 0⟩

/-- Sessions live after an event: `connectReq` adds one, `disconnectReq`
removes it. -/
def liveStep (acc : List Nat) : Event → List Nat
  | Event.connectReq n => acc ++ [n]
  | Event.disconnectReq n => acc.filter (fun x => x ≠ n)
  | _ => acc

/-- After every event of the trace, at most one session is live. -/
def atMostOneLive (acc : List Nat) : List Event → Bool
  | [] => true
  | e :: rest =>
    decide ((liveStep acc e).length ≤ 1) && atMostOneLive (liveStep acc e) rest

/-- Every `connectReq` happens while no session is live: any previously live
session had its disconnect requested earlier in the trace. -/
def connectFromIdle (acc : List Nat) : List Event → Bool
  | [] => true
  | e :: rest =>
    (match e with
     | Event.connectReq _ => acc.isEmpty
     | _ => true) && connectFromIdle (liveStep acc e) rest

/-- Every `resolveBegin` happens while no session is live. -/
def resolveWhileIdle (acc : List Nat) : List Event → Bool
  | [] => true
  | e :: rest =>
    (match e with
     | Event.resolveBegin => acc.isEmpty
     | _ => true) && resolveWhileIdle (liveStep acc e) rest

/-- Outcome of `kite.generateSession(request_token, api_secret)`. -/
inductive ExchangeResult where
  | ok (access_token : String)
  | err
deriving DecidableEq, Repr

/-- The `GET /auth/zerodha/callback` handler: returns the HTTP status, the
resulting module state and the emitted session events. A missing or empty
`request_token` (JS falsy) returns 400 before anything runs; a failing
`generateSession` is caught and answered with 500; on success the new token
is stored and `startTicker()` runs. -/
def callbackHandler (univ : List String) (st : CtrlState)
    (request_token : Option String) (exchange : ExchangeResult)
    (fetch : FetchResult) (discFail : Bool) : Nat × CtrlState × List Event :=
  match request_token with
  | none => (400, st, [])
  | some rt =>
    if rt = "" then (400, st, [])
    else
      match exchange with
      | ExchangeResult.err => (500, st, [])
      | ExchangeResult.ok tok =>
        let r := startTicker univ { st with accessToken := tok } fetch discFail
        (200, r.1, r.2)

/-- Calls the `connect` handler makes on the ticker. -/
inductive SubAction where
  | subscribe (chunk : List Nat)
  | setModeLTP (chunk : List Nat)
deriving DecidableEq, Repr

/-- The loop in the `connect` handler:
`for (let i = 0; i < tokens.length; i += chunkSize)` with `chunkSize = 20`;
`tokens.slice(i, i + 20)` is `(tokens.drop i).take 20`; each chunk is
subscribed and then set to LTP mode. -/
def connectLoop (tokens : List Nat) (i : Nat) : List SubAction :=
  if h : i < tokens.length then
    SubAction.subscribe ((tokens.drop i).take 20) ::
    SubAction.setModeLTP ((tokens.drop i).take 20) ::
    connectLoop tokens (i + 20)
  else []
termination_by tokens.length - i
decreasing_by omega

/-- The `connect` handler body over the resolved instrument tokens. -/
def onConnect (tokens : List Nat) : List SubAction :=
  connectLoop tokens 0

/-- Consecutive batches of at most 20, as the spec describes the batching;
written from the spec's words, to be compared with `onConnect`. -/
def chunksOfTwenty : List Nat → List (List Nat)
  | [] => []
  | x :: xs => ((x :: xs).take 20) :: chunksOfTwenty ((x :: xs).drop 20)
termination_by l => l.length
decreasing_by simp [List.length_drop]; omega

theorem processTick_eq (instMap : List (String × Nat)) (c : List (String × PriceEntry))
    (t : Tick) (now : Nat) :
    processTick instMap c t now =
      match findSymbol instMap t.instrument_token with
      | none => c
      | some sym => if tickPrice t ≠ 0 then mset c sym ⟨tickPrice t, now⟩ else c := rfl

theorem quotes_foldl_keys (ltp : List (String × PriceEntry)) (k : String) :
    ∀ (ts : List String) (out : List (String × Int)),
      k ∈ ((ts.foldl (fun out t =>
            match mget ltp t with
            | some q => mset out t q.price
            | none => out) out).map Prod.fst) →
      k ∈ out.map Prod.fst ∨ (k ∈ ts ∧ (mget ltp k).isSome = true) := by
  intro ts
  induction ts with
  | nil => intro out h; exact Or.inl h
  | cons t rest ih =>
    intro out h
    simp only [List.foldl_cons] at h
    cases hm : mget ltp t with
    | none =>
      rw [hm] at h
      rcases ih out h with h1 | ⟨h2, h3⟩
      · exact Or.inl h1
      · exact Or.inr ⟨List.mem_cons_of_mem t h2, h3⟩
    | some q =>
      rw [hm] at h
      rcases ih (mset out t q.price) h with h1 | ⟨h2, h3⟩
      · rcases (keys_mset out t q.price k).1 h1 with h4 | hk
        · exact Or.inl h4
        · right
          rw [hk]
          exact ⟨List.mem_cons_self t rest, by simp [hm]⟩
      · exact Or.inr ⟨List.mem_cons_of_mem t h2, h3⟩

theorem quotes_foldl_all_none (ltp : List (String × PriceEntry)) :
    ∀ (ts : List String) (out : List (String × Int)),
      (∀ t ∈ ts, mget ltp t = none) →
      ts.foldl (fun out t =>
          match mget ltp t with
          | some q => mset out t q.price
          | none => out) out = out := by
  intro ts
  induction ts with
  | nil => intro out _; rfl
  | cons t rest ih =>
    intro out hall
    simp only [List.foldl_cons, hall t (List.mem_cons_self t rest)]
    exact ih out (fun u hu => hall u (List.mem_cons_of_mem t hu))

/-- C1: the `/api/quotes` result maps only symbols that were both requested
and present in the price cache; a requested symbol with no cache entry is
omitted, so an empty ticker list or an all-uncached request yields `\x7b\x7d`. -/
theorem quotes_keys_subset (ltp : List (String × PriceEntry)) (s : String) :
    (∀ k, k ∈ (quotesHandler ltp s).map Prod.fst →
        k ∈ parseTickers s ∧ (mget ltp k).isSome = true) ∧
    quotesHandler ltp "" = [] ∧
    ((∀ t ∈ parseTickers s, mget ltp t = none) → quotesHandler ltp s = []) := by
  refine ⟨?_, ?_, ?_⟩
  · intro k hk
    rcases quotes_foldl_keys ltp k (parseTickers s) [] hk with h | h
    · simp at h
    · exact h
  · rfl
  · intro hall
    exact quotes_foldl_all_none ltp (parseTickers s) [] hall

theorem quotes_keys_subset_witness :
    ("HAL" ∈ parseTickers "HAL,INFY" ∧
      (mget [("HAL", (⟨5, 0⟩ : PriceEntry))] "HAL").isSome = true) ∧
    quotesHandler [("HAL", (⟨5, 0⟩ : PriceEntry))] "TCS" = [] := by
  constructor
  · exact (quotes_keys_subset [("HAL", ⟨5, 0⟩)] "HAL,INFY").1 "HAL" (by decide)
  · exact (quotes_keys_subset [("HAL", ⟨5, 0⟩)] "TCS").2.2 (by decide)

/-- C4: the tick handler overwrites the cached entry on every nonzero tick,
so after a tick pricing `X` at 100 (time `t1`) and then one at 105 (time
`t2 > t1`), the cache holds only `(105, t2)` for `X` and the quotes query
returns 105. -/
theorem tick_last_write_wins (instMap : List (String × Nat))
    (c : List (String × PriceEntry)) (X : String) (tok : Nat) (t1 t2 : Nat)
    (hsym : findSymbol instMap tok = some X) (ht : t1 < t2)
    (hX : parseTickers X = [X]) :
    mget (processTick instMap (processTick instMap c ⟨tok, some 100, none, none⟩ t1)
        ⟨tok, some 105, none, none⟩ t2) X = some ⟨105, t2⟩ ∧
    quotesHandler (processTick instMap (processTick instMap c ⟨tok, some 100, none, none⟩ t1)
        ⟨tok, some 105, none, none⟩ t2) X = [(X, 105)] := by
  have h1 : processTick instMap c ⟨tok, some 100, none, none⟩ t1 = mset c X ⟨100, t1⟩ := by
    rw [processTick_eq]
    simp [hsym, tickPrice, orField]
  have h2 : processTick instMap (mset c X ⟨100, t1⟩) ⟨tok, some 105, none, none⟩ t2 =
      mset (mset c X ⟨100, t1⟩) X ⟨105, t2⟩ := by
    rw [processTick_eq]
    simp [hsym, tickPrice, orField]
  have hget : mget (mset (mset c X ⟨100, t1⟩) X ⟨105, t2⟩) X = some ⟨105, t2⟩ :=
    mget_mset_self (mset c X ⟨100, t1⟩) X ⟨105, t2⟩
  refine ⟨by rw [h1, h2, hget], ?_⟩
  rw [h1, h2]
  show (parseTickers X).foldl _ [] = _
  rw [hX]
  simp only [List.foldl_cons, List.foldl_nil, hget]
  rfl

theorem tick_last_write_wins_witness :
    mget (processTick [("HAL", 1)] (processTick [("HAL", 1)] [] ⟨1, some 100, none, none⟩ 3)
        ⟨1, some 105, none, none⟩ 7) "HAL" = some ⟨105, 7⟩ :=
  (tick_last_write_wins [("HAL", 1)] [] "HAL" 1 3 7 (by decide) (by decide) (by decide)).1

/-- C5: `hydrateInstrumentMap` rebuilds the symbol-to-token map from scratch
on every successful run, so running it twice against the same catalog
snapshot yields the same mapping as running it once. -/
theorem hydrate_idempotent (univ : List String) (prev : List (String × Nat))
    (catalog : List CatalogRec) :
    hydrateInstrumentMap univ
        (hydrateInstrumentMap univ prev (FetchResult.ok catalog))
        (FetchResult.ok catalog) =
      hydrateInstrumentMap univ prev (FetchResult.ok catalog) := rfl

theorem buildInstrumentMap_keys_aux (univ : List String) (s : String) :
    ∀ (catalog : List CatalogRec) (m0 : List (String × Nat)),
      (s ∈ (catalog.foldl (fun m r =>
              if r.tradingsymbol ∈ univ then mset m r.tradingsymbol r.instrument_token
              else m) m0).map Prod.fst ↔
        s ∈ m0.map Prod.fst ∨ (s ∈ univ ∧ ∃ r ∈ catalog, r.tradingsymbol = s)) := by
  intro catalog
  induction catalog with
  | nil => intro m0; simp
  | cons r rest ih =>
    intro m0
    simp only [List.foldl_cons]
    by_cases hr : r.tradingsymbol ∈ univ
    · rw [if_pos hr, ih, keys_mset]
      constructor
      · rintro ((h | rfl) | ⟨hu, r', hr', hs⟩)
        · exact Or.inl h
        · exact Or.inr ⟨hr, r, List.mem_cons_self r rest, rfl⟩
        · exact Or.inr ⟨hu, r', List.mem_cons_of_mem r hr', hs⟩
      · rintro (h | ⟨hu, r', hr', hs⟩)
        · exact Or.inl (Or.inl h)
        · rcases List.mem_cons.1 hr' with rfl | h2
          · exact Or.inl (Or.inr hs.symm)
          · exact Or.inr ⟨hu, r', h2, hs⟩
    · rw [if_neg hr, ih]
      constructor
      · rintro (h | ⟨hu, r', hr', hs⟩)
        · exact Or.inl h
        · exact Or.inr ⟨hu, r', List.mem_cons_of_mem r hr', hs⟩
      · rintro (h | ⟨hu, r', hr', hs⟩)
        · exact Or.inl h
        · rcases List.mem_cons.1 hr' with rfl | h2
          · rw [hs] at hr
            exact absurd hu hr
          · exact Or.inr ⟨hu, r', h2, hs⟩

/-- C6: on a successful fetch the resolver's key set is exactly the universe
symbols that occur in the catalog; universe symbols absent from the catalog
are silently dropped (the resolver is total, no error path). -/
theorem resolver_keys (univ : List String) (prev : List (String × Nat))
    (catalog : List CatalogRec) (s : String) :
    s ∈ (hydrateInstrumentMap univ prev (FetchResult.ok catalog)).map Prod.fst ↔
      s ∈ univ ∧ ∃ r ∈ catalog, r.tradingsymbol = s := by
  have h := buildInstrumentMap_keys_aux univ s catalog []
  simpa [hydrateInstrumentMap, buildInstrumentMap] using h

/-- C7: a callback request without a `request_token` is answered with 400
before anything runs: the token, instrument map, price cache and session are
untouched and no session events are emitted. -/
theorem callback_missing_token (univ : List String) (st : CtrlState)
    (exchange : ExchangeResult) (fetch : FetchResult) (discFail : Bool) :
    (callbackHandler univ st none exchange fetch discFail).1 = 400 ∧
    (callbackHandler univ st none exchange fetch discFail).2.1.accessToken = st.accessToken ∧
    (callbackHandler univ st none exchange fetch discFail).2.1.instrumentBySymbol =
      st.instrumentBySymbol ∧
    (callbackHandler univ st none exchange fetch discFail).2.1.ltpMap = st.ltpMap ∧
    (callbackHandler univ st none exchange fetch discFail).2.1.live = st.live ∧
    (callbackHandler univ st none exchange fetch discFail).2.2 = [] :=
  ⟨rfl, rfl, rfl, rfl, rfl, rfl⟩

/-- C8: a callback whose credential exchange throws is answered with 500 by
the `catch` block; the handler is total (no crash) and the state — in
particular the stored access token — is unchanged, because the assignment
only happens after a successful `generateSession`. -/
theorem callback_exchange_failure (univ : List String) (st : CtrlState)
    (rt : String) (fetch : FetchResult) (discFail : Bool) (h : rt ≠ "") :
    (callbackHandler univ st (some rt) ExchangeResult.err fetch discFail).1 = 500 ∧
    (callbackHandler univ st (some rt) ExchangeResult.err fetch discFail).2.1 = st ∧
    (callbackHandler univ st (some rt) ExchangeResult.err fetch discFail).2.2 = [] := by
  simp [callbackHandler, h]

theorem callback_exchange_failure_witness :
    ("abc" : String) ≠ "" ∧
    (callbackHandler [] initState (some "abc") ExchangeResult.err FetchResult.err false).1 = 500 :=
  ⟨by decide,
   (callback_exchange_failure [] initState "abc" FetchResult.err false (by decide)).1⟩

theorem tryDisconnect_eq (fails : Bool) (oldId : Nat) :
    tryDisconnect fails oldId = [Event.disconnectReq oldId] := by
  cases fails <;> rfl

theorem atMostOneLive_append (t1 t2 : List Event) :
    ∀ acc, atMostOneLive acc (t1 ++ t2) =
      (atMostOneLive acc t1 && atMostOneLive (t1.foldl liveStep acc) t2) := by
  induction t1 with
  | nil => intro acc; simp [atMostOneLive]
  | cons e rest ih => intro acc; simp [atMostOneLive, ih, Bool.and_assoc]

theorem connectFromIdle_append (t1 t2 : List Event) :
    ∀ acc, connectFromIdle acc (t1 ++ t2) =
      (connectFromIdle acc t1 && connectFromIdle (t1.foldl liveStep acc) t2) := by
  induction t1 with
  | nil => intro acc; simp [connectFromIdle]
  | cons e rest ih => intro acc; simp [connectFromIdle, ih, Bool.and_assoc]

theorem applyOp_ok (univ : List String) (st : CtrlState) (op : Op) :
    atMostOneLive st.live.toList (applyOp univ st op).2 = true ∧
    connectFromIdle st.live.toList (applyOp univ st op).2 = true ∧
    (applyOp univ st op).2.foldl liveStep st.live.toList = (applyOp univ st op).1.live.toList := by
  unfold applyOp startTicker
  by_cases h1 : op.token = ""
  · simp [h1, atMostOneLive, connectFromIdle]
  · simp only [h1, if_false]
    set inst2 := hydrateInstrumentMap univ st.instrumentBySymbol op.fetch with hinst
    by_cases h2 : (inst2.map Prod.snd).isEmpty
    · cases hl : st.live with
      | none => simp [h2, atMostOneLive, connectFromIdle, liveStep, hl]
      | some oldId => simp [h2, atMostOneLive, connectFromIdle, liveStep, hl]
    · cases hl : st.live with
      | none =>
        simp [h2, hl, atMostOneLive, connectFromIdle, liveStep, tryDisconnect_eq]
      | some oldId =>
        simp [h2, hl, atMostOneLive, connectFromIdle, liveStep, tryDisconnect_eq]

theorem runOps_ok (univ : List String) :
    ∀ (ops : List Op) (st : CtrlState),
      atMostOneLive st.live.toList (runOps univ st ops).2 = true ∧
      connectFromIdle st.live.toList (runOps univ st ops).2 = true ∧
      (runOps univ st ops).2.foldl liveStep st.live.toList =
        (runOps univ st ops).1.live.toList := by
  intro ops
  induction ops with
  | nil => intro st; exact ⟨rfl, rfl, rfl⟩
  | cons op rest ih =>
    intro st
    obtain ⟨ha, hc, hf⟩ := applyOp_ok univ st op
    obtain ⟨ha2, hc2, hf2⟩ := ih (applyOp univ st op).1
    simp only [runOps]
    refine ⟨?_, ?_, ?_⟩
    · rw [atMostOneLive_append, ha, hf, ha2]
      rfl
    · rw [connectFromIdle_append, hc, hf, hc2]
      rfl
    · rw [List.foldl_append, hf, hf2]

theorem startTicker_ignores_disconnect_outcome (univ : List String) (st : CtrlState)
    (fetch : FetchResult) (b b' : Bool) :
    startTicker univ st fetch b = startTicker univ st fetch b' := by
  simp only [startTicker, tryDisconnect_eq]

/-- Replace the `discFail` outcome of each operation by the given flags. -/
def setFlags : List Op → List Bool → List Op
  | [], _ => []
  | op :: rest, [] => op :: rest
  | op :: rest, b :: bs => { op with discFail := b } :: setFlags rest bs

theorem runOps_setFlags (univ : List String) :
    ∀ (ops : List Op) (fs : List Bool) (st : CtrlState),
      runOps univ st (setFlags ops fs) = runOps univ st ops := by
  intro ops
  induction ops with
  | nil => intro fs st; cases fs <;> rfl
  | cons op rest ih =>
    intro fs st
    cases fs with
    | nil => rfl
    | cons b bs =>
      simp only [setFlags, runOps, applyOp]
      rw [startTicker_ignores_disconnect_outcome univ _ op.fetch b op.discFail, ih bs]

/-- C2: over any sequence of credential-set operations from process start, at
most one streaming session is live after every event; every `connect()` is
requested only once the previously live session's `disconnect()` has been
requested; and the trace does not depend on whether any of the (caught)
disconnect calls fail. -/
theorem at_most_one_session (univ : List String) (ops : List Op) :
    atMostOneLive [] (runOps univ initState ops).2 = true ∧
    connectFromIdle [] (runOps univ initState ops).2 = true ∧
    (∀ fs : List Bool, runOps univ initState (setFlags ops fs) = runOps univ initState ops) := by
  obtain ⟨ha, hc, _⟩ := runOps_ok univ ops initState
  exact ⟨ha, hc, fun fs => runOps_setFlags univ ops fs initState⟩

/-- C3, counterexample to the claim as stated: with two successive credential
rotations, the second `startTicker()` begins instrument resolution while the
first session is still live — `hydrateInstrumentMap` is awaited before the
old ticker's `disconnect()` is requested, so resolution and the old
connection do overlap. -/
theorem resolution_while_live :
    resolveWhileIdle []
      (runOps ["INFY"] initState
        [⟨"tok1", FetchResult.ok [⟨"INFY", 1⟩], false⟩,
         ⟨"tok2", FetchResult.ok [⟨"INFY", 1⟩], false⟩]).2 = false := by
  decide

/-- C3 (amended): when a new credential replaces the current one while a
session is live (and resolution yields a nonempty token list), the events of
`startTicker()` are, in order: resolution begins, resolution ends, the old
session's disconnect is requested, the new session's connect is requested.
The old connection is closed only after resolution completes (not before it
begins), and before the new connect. -/
theorem resolution_precedes_disconnect (univ : List String) (st : CtrlState) (op : Op)
    (n : Nat) (htok : op.token ≠ "") (hlive : st.live = some n)
    (hres : ((hydrateInstrumentMap univ st.instrumentBySymbol op.fetch).map Prod.snd).isEmpty = false) :
    (applyOp univ st op).2 =
      [Event.resolveBegin, Event.resolveEnd, Event.disconnectReq n,
       Event.connectReq st.nextId] := by
  unfold applyOp startTicker
  simp [htok, hlive, hres, tryDisconnect_eq]

theorem resolution_precedes_disconnect_witness :
    (applyOp ["INFY"] ⟨"old", [("INFY", 1)], [], some 0, 1⟩
        ⟨"new", FetchResult.ok [⟨"INFY", 1⟩], false⟩).2 =
      [Event.resolveBegin, Event.resolveEnd, Event.disconnectReq 0, Event.connectReq 1] :=
  resolution_precedes_disconnect ["INFY"] ⟨"old", [("INFY", 1)], [], some 0, 1⟩
    ⟨"new", FetchResult.ok [⟨"INFY", 1⟩], false⟩ 0 (by decide) rfl (by decide)

theorem chunksOfTwenty_nil : chunksOfTwenty [] = [] := by
  simp [chunksOfTwenty]

theorem chunksOfTwenty_cons (l : List Nat) (h : l ≠ []) :
    chunksOfTwenty l = l.take 20 :: chunksOfTwenty (l.drop 20) := by
  cases l with
  | nil => exact absurd rfl h
  | cons x xs => simp [chunksOfTwenty]

theorem chunksOfTwenty_flatten : ∀ l : List Nat, (chunksOfTwenty l).flatten = l := by
  intro l
  induction l using chunksOfTwenty.induct with
  | case1 => rw [chunksOfTwenty_nil]; rfl
  | case2 x xs ih =>
    rw [chunksOfTwenty_cons (x :: xs) (by simp), List.flatten_cons, ih,
      List.take_append_drop]

theorem chunksOfTwenty_sizes : ∀ l : List Nat,
    (chunksOfTwenty l).all (fun c => decide (c.length ≤ 20) && !c.isEmpty) = true := by
  intro l
  induction l using chunksOfTwenty.induct with
  | case1 => rw [chunksOfTwenty_nil]; rfl
  | case2 x xs ih =>
    rw [chunksOfTwenty_cons (x :: xs) (by simp), List.all_cons, ih]
    simp [List.length_take]

theorem connectLoop_eq (tokens : List Nat) : ∀ i : Nat,
    connectLoop tokens i =
      (chunksOfTwenty (tokens.drop i)).flatMap
        (fun c => [SubAction.subscribe c, SubAction.setModeLTP c]) := by
  intro i
  induction i using connectLoop.induct tokens with
  | case1 i h ih =>
    rw [connectLoop, dif_pos h]
    have hne : tokens.drop i ≠ [] := by
      intro h0
      rw [List.drop_eq_nil_iff] at h0
      omega
    rw [chunksOfTwenty_cons (tokens.drop i) hne, List.flatMap_cons, ih,
      List.drop_drop]
    rfl
  | case2 i h =>
    rw [connectLoop, dif_neg h]
    have h0 : tokens.drop i = [] := by
      rw [List.drop_eq_nil_iff]
      omega
    rw [h0, chunksOfTwenty_nil]
    rfl

/-- C9: the `connect` handler issues, for the resolved token list, exactly a
subscribe followed by an LTP-mode call for each consecutive batch; the
batches concatenate back to the full token list (so every resolved token is
in exactly one batch), each batch is nonempty and holds at most 20 tokens. -/
theorem on_connect_batches (tokens : List Nat) :
    onConnect tokens =
      (chunksOfTwenty tokens).flatMap
        (fun c => [SubAction.subscribe c, SubAction.setModeLTP c]) ∧
    (chunksOfTwenty tokens).flatten = tokens ∧
    (chunksOfTwenty tokens).all (fun c => decide (c.length ≤ 20) && !c.isEmpty) = true := by
  refine ⟨?_, chunksOfTwenty_flatten tokens, chunksOfTwenty_sizes tokens⟩
  have h := connectLoop_eq tokens 0
  simpa [onConnect] using h

theorem tick_price_zero_of_zero_fields (t : Tick)
    (h1 : t.last_price = none ∨ t.last_price = some 0)
    (h2 : t.ltp = none ∨ t.ltp = some 0)
    (h3 : t.close = none ∨ t.close = some 0) : tickPrice t = 0 := by
  unfold tickPrice
  rcases h1 with h1 | h1 <;> rcases h2 with h2 | h2 <;> rcases h3 with h3 | h3 <;>
    simp [orField, h1, h2, h3]

theorem processTick_nosym (instMap : List (String × Nat)) (c : List (String × PriceEntry))
    (t : Tick) (now : Nat) (h : findSymbol instMap t.instrument_token = none) :
    processTick instMap c t now = c := by
  unfold processTick
  rw [h]

theorem processTick_some (instMap : List (String × Nat)) (c : List (String × PriceEntry))
    (t : Tick) (now : Nat) (sym : String)
    (h : findSymbol instMap t.instrument_token = some sym) (hp : tickPrice t ≠ 0) :
    processTick instMap c t now = mset c sym ⟨tickPrice t, now⟩ := by
  unfold processTick
  rw [h]
  exact if_pos hp

theorem processTick_zeroPrice (instMap : List (String × Nat)) (c : List (String × PriceEntry))
    (t : Tick) (now : Nat) (sym : String)
    (h : findSymbol instMap t.instrument_token = some sym) (hp : ¬ tickPrice t ≠ 0) :
    processTick instMap c t now = c := by
  unfold processTick
  rw [h]
  exact if_neg hp

theorem processTick_preserves_nonzero (instMap : List (String × Nat))
    (c : List (String × PriceEntry)) (t : Tick) (now : Nat)
    (hc : ∀ s e, mget c s = some e → e.price ≠ 0) :
    ∀ s e, mget (processTick instMap c t now) s = some e → e.price ≠ 0 := by
  intro s e
  cases hfind : findSymbol instMap t.instrument_token with
  | none =>
    rw [processTick_nosym instMap c t now hfind]
    exact hc s e
  | some sym =>
    by_cases hp : tickPrice t ≠ 0
    · rw [processTick_some instMap c t now sym hfind hp]
      intro he
      by_cases hs : s = sym
      · subst hs
        rw [mget_mset_self] at he
        injection he with he2
        rw [← he2]
        exact hp
      · rw [mget_mset_ne c sym s _ hs] at he
        exact hc s e he
    · rw [processTick_zeroPrice instMap c t now sym hfind hp]
      exact hc s e

/-- C10: a tick whose `last_price`, `ltp` and `close` are all absent or zero
leaves the price cache untouched, and consequently every entry the cache
ever holds has a nonzero price — a zero price is never observable through
the cache. -/
theorem ticks_never_store_zero (instMap : List (String × Nat)) :
    (∀ (c : List (String × PriceEntry)) (t : Tick) (now : Nat),
        (t.last_price = none ∨ t.last_price = some 0) →
        (t.ltp = none ∨ t.ltp = some 0) →
        (t.close = none ∨ t.close = some 0) →
        processTick instMap c t now = c) ∧
    (∀ (ticks : List (Tick × Nat)) (s : String) (e : PriceEntry),
        mget (processTicks instMap [] ticks) s = some e → e.price ≠ 0) := by
  constructor
  · intro c t now h1 h2 h3
    cases hfind : findSymbol instMap t.instrument_token with
    | none => exact processTick_nosym instMap c t now hfind
    | some sym =>
      refine processTick_zeroPrice instMap c t now sym hfind ?_
      intro hne
      exact hne (tick_price_zero_of_zero_fields t h1 h2 h3)
  · have hinv : ∀ (ticks : List (Tick × Nat)) (c : List (String × PriceEntry)),
        (∀ s e, mget c s = some e → e.price ≠ 0) →
        ∀ s e, mget (processTicks instMap c ticks) s = some e → e.price ≠ 0 := by
      intro ticks
      induction ticks with
      | nil => intro c hc; exact hc
      | cons p rest ih =>
        intro c hc
        exact ih (processTick instMap c p.1 p.2)
          (processTick_preserves_nonzero instMap c p.1 p.2 hc)
    intro ticks s e
    refine hinv ticks [] ?_ s e
    intro s' e' he'
    rw [mget_nil] at he'
    cases he'

theorem ticks_never_store_zero_witness :
    processTick [("HAL", 1)] [] ⟨1, none, some 0, none⟩ 5 = [] ∧ (3 : Int) ≠ 0 := by
  constructor
  · exact (ticks_never_store_zero [("HAL", 1)]).1 [] ⟨1, none, some 0, none⟩ 5
      (Or.inl rfl) (Or.inr rfl) (Or.inl rfl)
  · exact (ticks_never_store_zero [("HAL", 1)]).2 [(⟨1, some 3, none, none⟩, 7)] "HAL"
      ⟨3, 7⟩ (by decide)

end Nifty100
